import Mathlib

/-!
Verification of the diff-coordinate model, analysis-orchestration protocol,
finding partitioner and match evaluator of the code-review tool.

The TypeScript sources are embedded shallowly:
* strings are `List Char`; `String.prototype.startsWith` is `List.isPrefixOf`;
* JavaScript numbers holding line coordinates are `Int` (the hunk-header
  fields come from `parseInt` on digit runs, so they are non-negative, but
  the engine's findings may carry arbitrary integers);
* the two regular expressions of the parsers (`FILE_HEADER_RE`,
  `HUNK_HEADER_RE`) are implemented as explicit scanners whose behaviour
  coincides with the regex semantics (greedy `\d+` and `.+`, optional
  `,count` groups, unanchored tail);
* metric ratios computed with JavaScript division are `Rat`.
-/

namespace CodeReview

/-- Longest leading run of ASCII digits of a line (the regex `\d+`, greedy). -/
def takeDigits : List Char → List Char × List Char
  | [] => ([], [])
  | c :: cs =>
    if c.isDigit then
      let (ds, rest) := takeDigits cs
      (c :: ds, rest)
    else ([], c :: cs)

/-- Numeric value of a digit run, as `parseInt(_, 10)` produces it. -/
def natOfDigits (ds : List Char) : Nat :=
  ds.foldl (fun n c => 10 * n + (c.toNat - '0'.toNat)) 0

/-- Drop a literal prefix, returning the remainder when the prefix is there. -/
def stripPre : List Char → List Char → Option (List Char)
  | [], l => some l
  | _ :: _, [] => none
  | p :: ps, c :: cs => if p = c then stripPre ps cs else none

/-- Split a character stream at `'\n'`, as `String.prototype.split('\n')`. -/
def splitLines : List Char → List (List Char)
  | [] => [[]]
  | c :: rest =>
    if c = '\n' then [] :: splitLines rest
    else
      match splitLines rest with
      | [] => [[c]]
      | l :: ls => (c :: l) :: ls

/-- The characters `String.prototype.trim` removes. -/
def isJsSpace (c : Char) : Bool :=
  c == ' ' || c == '\t' || c == '\n' || c == '\r' ||
  c.toNat == 0x0b || c.toNat == 0x0c || c.toNat == 0xa0 || c.toNat == 0xfeff

/-- `String.prototype.trim`: strip leading and trailing whitespace. -/
def jsTrim (cs : List Char) : List Char :=
  ((cs.dropWhile isJsSpace).reverse.dropWhile isJsSpace).reverse

/--
`HUNK_HEADER_RE = /^@@ -(\d+)(?:,(\d+))? \+(\d+)(?:,(\d+))? @@/` applied to a
line: `some (oldStart, oldCount?, newStart, newCount?)` on a match.  The
optional groups are `none` when the `,count` part is absent.  After the
greedy `\d+` a `,` not followed by a digit cannot be given back, so maximal
munch scanning is equivalent to the regex.
-/
def parseHunkHeader (l : List Char) : Option (Int × Option Int × Int × Option Int) :=
  match stripPre ("@@ -".toList) l with
  | none => none
  | some r1 =>
    let (ds1, r2) := takeDigits r1
    if ds1 = [] then none else
    match optCount r2 with
    | none => none
    | some (oc, r3) =>
      match stripPre (" +".toList) r3 with
      | none => none
      | some r4 =>
        let (ds2, r5) := takeDigits r4
        if ds2 = [] then none else
        match optCount r5 with
        | none => none
        | some (nc, r6) =>
          match stripPre (" @@".toList) r6 with
          | none => none
          | some _ => some ((natOfDigits ds1 : Int), oc, (natOfDigits ds2 : Int), nc)
where
  /-- The optional `(?:,(\d+))?` group: a comma must be followed by digits or
  the whole match fails (the comma cannot be part of any other token). -/
  optCount : List Char → Option (Option Int × List Char)
  | ',' :: r =>
    let (ds, r') := takeDigits r
    if ds = [] then none else some (some (natOfDigits ds : Int), r')
  | r => some (none, r)

/--
The last split of a character list around `" b/"` whose suffix is non-empty:
the backtracking position the greedy `.+` of `FILE_HEADER_RE` settles on.
-/
def lastBSplit : List Char → Option (List Char × List Char)
  | [] => none
  | c :: cs =>
    match lastBSplit cs with
    | some (p, s) => some (c :: p, s)
    | none =>
      match stripPre (" b/".toList) (c :: cs) with
      | some suf => if suf = [] then none else some ([], suf)
      | none => none

/--
`FILE_HEADER_RE = /^diff --git a\/.+ b\/(.+)$/` applied to a line: the first
capture group (the `b/` path) on a match.  The greedy `.+` forces the *last*
occurrence of `" b/"` that leaves both sides non-empty.
-/
def fileHeaderTarget (l : List Char) : Option (List Char) :=
  match stripPre ("diff --git a/".toList) l with
  | none => none
  | some rest =>
    match lastBSplit rest with
    | none => none
    | some (pre, suf) => if pre = [] then none else some suf

/-- A hunk range from a unified diff (new-file side), `types.ts`. -/
structure DiffHunk where
  newStart : Int
  newCount : Int
deriving DecidableEq, Repr

/-- Lookup in the insertion-ordered map modelling the JavaScript `Map`. -/
def alGet {α : Type} (m : List (List Char × α)) (k : List Char) : Option α :=
  match m with
  | [] => none
  | (k', v) :: rest => if k' = k then some v else alGet rest k

/-- `Map.set(k, [])` when `!Map.has(k)`: append a fresh entry. -/
def alInit {α : Type} (m : List (List Char × α)) (k : List Char) (v : α) :
    List (List Char × α) :=
  match alGet m k with
  | some _ => m
  | none => m ++ [(k, v)]

/-- `Map.get(k)!.push(h)`: append to the entry already present at `k`. -/
def alPush (m : List (List Char × List DiffHunk)) (k : List Char) (h : DiffHunk) :
    List (List Char × List DiffHunk) :=
  m.map fun e => if e.1 = k then (e.1, e.2 ++ [h]) else e

/-- One line of `parseDiffHunks`'s scan (`diff-parser.ts`, lines 17-33). -/
def diffHunksStep (st : List (List Char × List DiffHunk) × Option (List Char))
    (line : List Char) : List (List Char × List DiffHunk) × Option (List Char) :=
  match fileHeaderTarget line with
  | some file => (alInit st.1 file [], some file)
  | none =>
    match parseHunkHeader line with
    | some (_, _, newStart, newCount) =>
      match st.2 with
      | some file => (alPush st.1 file ⟨newStart, newCount.getD 1⟩, st.2)
      | none => st
    | none => st

/--
`parseDiffHunks` (`diff-parser.ts`): parse a unified diff and return the
insertion-ordered map from filename to its hunks' `(newStart, newCount)`
pairs, with `newCount` defaulting to `1` when the header omits it.
-/
def parseDiffHunks (diff : List Char) : List (List Char × List DiffHunk) :=
  ((splitLines diff).foldl diffHunksStep ([], none)).1

/--
`isLineInDiff` (`diff-parser.ts`): whether `line` falls within any hunk,
i.e. `line >= hunk.newStart && line < hunk.newStart + hunk.newCount` for
some hunk of the array.
-/
def isLineInDiff (hunks : List DiffHunk) (line : Int) : Bool :=
  hunks.any fun hunk => hunk.newStart ≤ line && line < hunk.newStart + hunk.newCount

/-- Line type of a parsed diff line (`html-diff-parser.ts`, `DiffLine.type`). -/
inductive DLType where
  | context
  | addition
  | deletion
  | hunkHeader
deriving DecidableEq, Repr

/-- `DiffLine` (`html-diff-parser.ts`): one structured line of a parsed diff. -/
structure DiffLine where
  type : DLType
  oldLineNum : Option Int
  newLineNum : Option Int
  content : List Char
deriving DecidableEq, Repr

/-- File status of a parsed diff file (`html-diff-parser.ts`, `DiffFile.status`). -/
inductive DFStatus where
  | added
  | deleted
  | modified
  | renamed
deriving DecidableEq, Repr

/-- `DiffFile` (`html-diff-parser.ts`): one file entry of a parsed diff. -/
structure DiffFile where
  filename : List Char
  oldFilename : List Char
  status : DFStatus
  lines : List DiffLine
deriving DecidableEq, Repr

/-- Metadata lines skipped by `parseDetailedDiff` (lines 90-103 of the source). -/
def isMetadataLine (l : List Char) : Bool :=
  ("--- ".toList).isPrefixOf l ||
  ("+++ ".toList).isPrefixOf l ||
  ("index ".toList).isPrefixOf l ||
  ("new file mode".toList).isPrefixOf l ||
  ("deleted file mode".toList).isPrefixOf l ||
  ("old mode".toList).isPrefixOf l ||
  ("new mode".toList).isPrefixOf l ||
  ("similarity index".toList).isPrefixOf l ||
  ("dissimilarity index".toList).isPrefixOf l ||
  ("Binary files".toList).isPrefixOf l

/-- Scanner state of `parseDetailedDiff`: the finished files, the file being
built (`current` — the source pushes it into `files` on creation and mutates
it in place; here it is flushed when the next file header or the end of the
input is reached), and the two running line counters. -/
structure DetState where
  files : List DiffFile
  current : Option DiffFile
  oldLineNum : Int
  newLineNum : Int
deriving DecidableEq, Repr

/-- One line of `parseDetailedDiff`'s scan (`html-diff-parser.ts`, lines 48-151),
with the guards in the source's order. -/
def detStep (st : DetState) (line : List Char) : DetState :=
  match fileHeaderTarget line with
  | some name =>
    { st with
      files := st.files ++ st.current.toList
      current := some ⟨name, name, .modified, []⟩ }
  | none =>
    match st.current with
    | none => st
    | some cur =>
      if ("rename from ".toList).isPrefixOf line then
        { st with current := some { cur with oldFilename := line.drop 12, status := .renamed } }
      else if ("rename to ".toList).isPrefixOf line then
        { st with current := some { cur with filename := line.drop 10, status := .renamed } }
      else if ("--- /dev/null".toList).isPrefixOf line then
        { st with current := some { cur with status := .added } }
      else if ("+++ /dev/null".toList).isPrefixOf line then
        { st with current := some { cur with status := .deleted } }
      else if isMetadataLine line then st
      else if ("\\ ".toList).isPrefixOf line then st
      else
        match parseHunkHeader line with
        | some (o, _, n, _) =>
          { st with
            oldLineNum := o
            newLineNum := n
            current := some { cur with lines := cur.lines ++ [⟨.hunkHeader, none, none, line⟩] } }
        | none =>
          match line with
          | '+' :: rest =>
            { st with
              current := some { cur with
                lines := cur.lines ++ [⟨.addition, none, some st.newLineNum, rest⟩] }
              newLineNum := st.newLineNum + 1 }
          | '-' :: rest =>
            { st with
              current := some { cur with
                lines := cur.lines ++ [⟨.deletion, some st.oldLineNum, none, rest⟩] }
              oldLineNum := st.oldLineNum + 1 }
          | ' ' :: rest =>
            { st with
              current := some { cur with
                lines := cur.lines ++ [⟨.context, some st.oldLineNum, some st.newLineNum, rest⟩] }
              oldLineNum := st.oldLineNum + 1
              newLineNum := st.newLineNum + 1 }
          | _ => st

/--
`parseDetailedDiff` (`html-diff-parser.ts`): parse a unified diff into
structured per-file, per-line data; empty or whitespace-only input yields the
empty list.
-/
def parseDetailedDiff (raw : List Char) : List DiffFile :=
  if raw = [] ∨ jsTrim raw = [] then []
  else
    let st := (splitLines raw).foldl detStep ⟨[], none, 0, 0⟩
    st.files ++ st.current.toList

/-- Finding severity (`schemas.ts`, `z.enum(['bug','security','suggestion','nitpick'])`). -/
inductive Severity where
  | bug
  | security
  | suggestion
  | nitpick
deriving DecidableEq, Repr

/-- Finding confidence (`schemas.ts`, `z.enum(['high','medium','low'])`). -/
inductive Confidence where
  | high
  | medium
  | low
deriving DecidableEq, Repr

/-- A related code location referenced by a finding (`schemas.ts`). -/
structure RelatedLocation where
  file : List Char
  line : Int
  reason : List Char
deriving DecidableEq, Repr

/-- `ReviewFinding` (`schemas.ts`): a single validated review finding. -/
structure ReviewFinding where
  file : List Char
  line : Int
  endLine : Option Int := none
  severity : Severity
  confidence : Confidence
  category : List Char := []
  description : List Char := []
  suggestedFix : Option (List Char) := none
  relatedLocations : Option (List RelatedLocation) := none
deriving DecidableEq, Repr

/--
`partitionFindings` (`review-builder.ts`): split findings into those whose
file has hunks containing their line (inline) and the rest (off-diff),
preserving the input order of both sides.
-/
def partitionFindings (findings : List ReviewFinding)
    (diffHunks : List (List Char × List DiffHunk)) :
    List ReviewFinding × List ReviewFinding :=
  match findings with
  | [] => ([], [])
  | f :: rest =>
    let (inl, offd) := partitionFindings rest diffHunks
    match alGet diffHunks f.file with
    | some hunks =>
      if isLineInDiff hunks f.line then (f :: inl, offd) else (inl, f :: offd)
    | none => (inl, f :: offd)

/-- Ground-truth classification label (`eval.ts`, `EvalFinding.classification`). -/
inductive Classification where
  | GOOD
  | MEH
  | BAD
deriving DecidableEq, Repr

/-- `EvalFinding` (`eval.ts`): an expected finding from evaluation fixtures. -/
structure EvalFinding where
  file : List Char
  line : Int
  severity : List Char := []
  category : List Char := []
  classification : Classification
  is_cross_file : Option Bool := none
deriving DecidableEq, Repr

/-- `FindingMatch` (`eval.ts`): one expected finding paired with the actual
finding chosen for it (`none` when unmatched, `distance = -1` then). -/
structure FindingMatch where
  expected : EvalFinding
  actual : Option ReviewFinding
  distance : Int
deriving DecidableEq, Repr

/-- `MatchResult` (`eval.ts`). -/
structure MatchResult where
  matched : List FindingMatch
  unmatched_actual : List ReviewFinding
deriving DecidableEq, Repr

/-- `EvalMetrics` (`eval.ts`), with the JavaScript ratios as rationals.
(`recall` is a Mathlib command keyword, hence the primed field name.) -/
structure EvalMetrics where
  precision : Rat
  recall' : Rat
  hallucinationRate : Rat
deriving DecidableEq, Repr

/-- Lexicographic character-list order modelling `String.prototype.localeCompare`
returning a negative value. -/
def charsLt : List Char → List Char → Bool
  | [], [] => false
  | [], _ :: _ => true
  | _ :: _, [] => false
  | a :: as, b :: bs =>
    if a.toNat < b.toNat then true
    else if b.toNat < a.toNat then false
    else charsLt as bs

/-- The comparator of `matchFindings`' sort: `(file, line)` ascending. -/
def evalKeyLt (a b : EvalFinding) : Bool :=
  charsLt a.file b.file || (a.file == b.file && a.line < b.line)

/-- Stable insertion of an element in front of the first entry that is not
strictly smaller — the placement a stable comparator sort gives an element
relative to the already-sorted later elements. -/
def sortInsert (e : EvalFinding) : List EvalFinding → List EvalFinding
  | [] => [e]
  | x :: xs => if evalKeyLt x e then x :: sortInsert e xs else e :: x :: xs

/-- `[...expected].sort(comparator)`: a stable sort by `(file, line)` ascending
(JavaScript `Array.prototype.sort` is stable). -/
def sortExpected : List EvalFinding → List EvalFinding
  | [] => []
  | x :: xs => sortInsert x (sortExpected xs)

/-- The inner candidate scan of `matchFindings` (`eval.ts`, lines 58-67):
running over the pool with the next index `i` and the best `(index, distance)`
so far, keep the first strict improvement within the 5-line window. -/
def findBestAux (exp : EvalFinding) :
    List ReviewFinding → Nat → Option (Nat × Nat) → Option (Nat × Nat)
  | [], _, best => best
  | act :: rest, i, best =>
    if act.file = exp.file then
      let d := (act.line - exp.line).natAbs
      let better : Bool :=
        match best with
        | none => decide (d ≤ 5)
        | some b => decide (d ≤ 5) && decide (d < b.2)
      if better then findBestAux exp rest (i + 1) (some (i, d))
      else findBestAux exp rest (i + 1) best
    else findBestAux exp rest (i + 1) best

/-- The best match for one expected finding: same file, distance at most 5,
minimal distance, earliest index on ties. -/
def findBest (exp : EvalFinding) (remaining : List ReviewFinding) : Option (Nat × Nat) :=
  findBestAux exp remaining 0 none

/-- The outer loop of `matchFindings` (`eval.ts`, lines 53-85): fold over the
sorted expected findings, consuming the chosen actual finding from the pool. -/
def matchGo : List EvalFinding → List ReviewFinding →
    List FindingMatch × List ReviewFinding
  | [], remaining => ([], remaining)
  | exp :: rest, remaining =>
    match findBest exp remaining with
    | some (i, d) =>
      let (ms, rem) := matchGo rest (remaining.eraseIdx i)
      (⟨exp, remaining.get? i, (d : Int)⟩ :: ms, rem)
    | none =>
      let (ms, rem) := matchGo rest remaining
      (⟨exp, none, -1⟩ :: ms, rem)

/--
`matchFindings` (`eval.ts`): greedy closest-first matching of actual findings
against expected findings, within a 5-line same-file window; the pool elements
never consumed are the `unmatched_actual` hallucinations.
-/
def matchFindings (actual : List ReviewFinding) (expected : List EvalFinding) :
    MatchResult :=
  let p := matchGo (sortExpected expected) actual
  ⟨p.1, p.2⟩

/-- The body of `computeMetrics`' counting loop (`eval.ts`, lines 110-123):
bump `tp` for a matched GOOD, `fp` for a matched non-GOOD, `fn` for an
unmatched GOOD; unmatched MEH/BAD bump nothing. -/
def metricsStep (c : Nat × Nat × Nat) (m : FindingMatch) : Nat × Nat × Nat :=
  match m.actual with
  | some _ =>
    if m.expected.classification = .GOOD then (c.1 + 1, c.2.1, c.2.2)
    else (c.1, c.2.1 + 1, c.2.2)
  | none =>
    if m.expected.classification = .GOOD then (c.1, c.2.1, c.2.2 + 1)
    else c

/--
`computeMetrics` (`eval.ts`): precision, recall and hallucination rate from a
match result, with the source's zero-division defaults.
-/
def computeMetrics (result : MatchResult) : EvalMetrics :=
  let c := result.matched.foldl metricsStep (0, 0, 0)
  let tp := c.1
  let fp := c.2.1
  let fn := c.2.2
  let hallucinations := result.unmatched_actual.length
  let totalActual := (result.matched.filter fun m => m.actual.isSome).length + hallucinations
  { precision := if tp + fp = 0 then 1 else (tp : Rat) / ((tp : Rat) + (fp : Rat))
    recall' := if tp + fn = 0 then 1 else (tp : Rat) / ((tp : Rat) + (fn : Rat))
    hallucinationRate :=
      if totalActual = 0 then 0 else (hallucinations : Rat) / (totalActual : Rat) }

/-- Claim-side count: matched pairs with a non-null actual whose expected
classification is GOOD (the true positives). -/
def tpCount (r : MatchResult) : Nat :=
  r.matched.countP fun m => decide (m.actual ≠ none ∧ m.expected.classification = .GOOD)

/-- Claim-side count: matched pairs with a non-null actual whose expected
classification is MEH or BAD (the false positives). -/
def fpCount (r : MatchResult) : Nat :=
  r.matched.countP fun m =>
    decide (m.actual ≠ none ∧
      (m.expected.classification = .MEH ∨ m.expected.classification = .BAD))

/-- Claim-side count: unmatched expected items classified GOOD (the false
negatives); unmatched MEH/BAD are not counted. -/
def fnCount (r : MatchResult) : Nat :=
  r.matched.countP fun m => decide (m.actual = none ∧ m.expected.classification = .GOOD)

/-- Claim-side count: matched pairs that carry an actual finding. -/
def matchedActualCount (r : MatchResult) : Nat :=
  r.matched.countP fun m => decide (m.actual ≠ none)

/--
The engine's JSON envelope (`analyzer.ts`, `ClaudeResponse`), restricted to the
fields the bounded-mode error protocol reads.  `resultFindings` models the
outcome of the double JSON parse of the `result` field (direct parse, then the
`{...findings...}` extraction fallback) followed by Zod validation: `some fs`
when that pipeline yields validated findings, `none` when it throws.
-/
structure Wrapper where
  is_error : Bool
  subtype : List Char
  result : List Char
  resultFindings : Option (List ReviewFinding)
deriving DecidableEq, Repr

/-- Outcome of one `execFile('claude', ...)` invocation, as the oracle the
orchestrator's control flow consumes: the subprocess was killed by the
5-minute timeout (`error.killed`), it threw some other error (including
stdout that is not JSON), or it produced a parsed envelope. -/
inductive ExecOutcome where
  | timeout
  | execError (msg : List Char)
  | output (w : Wrapper)
deriving DecidableEq, Repr

/-- The typed failures `analyzeDiff` surfaces. -/
inductive AnalyzeError where
  | timeout
  | cliError (result : List Char)
  | parseFailure
  | execFailure (msg : List Char)
  | analysisFailed
deriving DecidableEq, Repr

/-- How one iteration of `analyzeDiff`'s attempt loop ends. -/
inductive AttemptStep where
  | succeeded (findings : List ReviewFinding)
  | timedOut
  | failed (e : AnalyzeError)
deriving DecidableEq, Repr

/-- The body of one attempt of `analyzeDiff` (`analyzer.ts`, lines 119-196):
run the engine, check the envelope (`is_error` or a non-`success` subtype is a
hard failure), then parse and validate the `result` field; a timeout is
recognised in the catch block by the `killed` flag and rethrown. -/
def runAttempt : ExecOutcome → AttemptStep
  | .timeout => .timedOut
  | .execError msg => .failed (.execFailure msg)
  | .output w =>
    if w.is_error || w.subtype ≠ ("success".toList) then .failed (.cliError w.result)
    else
      match w.resultFindings with
      | some fs => .succeeded fs
      | none => .failed .parseFailure

/-- `MAX_ATTEMPTS` (`analyzer.ts`): 1 initial + 1 retry. -/
def MAX_ATTEMPTS : Nat := 2

/-- The attempt loop of `analyzeDiff` (`analyzer.ts`, lines 118-205):
`remaining` counts loop iterations left, `used` the invocations made,
`lastError` the stored non-timeout failure.  A timeout is thrown immediately;
any other failure is stored and the loop continues; an exhausted loop throws
the last error (or the `"Analysis failed"` fallback). -/
def analyzeGo (attempts : Nat → ExecOutcome) :
    Nat → Nat → Option AnalyzeError → Except AnalyzeError (List ReviewFinding) × Nat
  | 0, used, lastError => (.error (lastError.getD .analysisFailed), used)
  | remaining + 1, used, _lastError =>
    match runAttempt (attempts used) with
    | .succeeded fs => (.ok fs, used + 1)
    | .timedOut => (.error .timeout, used + 1)
    | .failed e => analyzeGo attempts remaining (used + 1) (some e)

/--
Bounded-mode `analyzeDiff` (`analyzer.ts`), with the engine invocation
abstracted as an oracle from the attempt index to its `ExecOutcome`.  Returns
the result together with the number of engine invocations performed.
-/
def analyzeDiff (attempts : Nat → ExecOutcome) :
    Except AnalyzeError (List ReviewFinding) × Nat :=
  analyzeGo attempts MAX_ATTEMPTS 0 none

/-- The absolute line distance `Math.abs(act.line - exp.line)` the matcher
compares against the window. -/
def findingDist (exp : EvalFinding) (act : ReviewFinding) : Nat :=
  (act.line - exp.line).natAbs

/-- A pool element is a candidate for an expected finding: same file and
within the inclusive 5-line window. -/
def withinWindow (exp : EvalFinding) (act : ReviewFinding) : Prop :=
  act.file = exp.file ∧ findingDist exp act ≤ 5

/-- The placement test `partitionFindings` applies to one finding: its file's
hunks exist in the map and contain its line. -/
def inlineP (diffHunks : List (List Char × List DiffHunk)) (f : ReviewFinding) : Bool :=
  match alGet diffHunks f.file with
  | some hunks => isLineInDiff hunks f.line
  | none => false

theorem partitionFindings_eq_filter (findings : List ReviewFinding)
    (m : List (List Char × List DiffHunk)) :
    partitionFindings findings m =
      (findings.filter (inlineP m), findings.filter fun f => ! inlineP m f) := by
  induction findings with
  | nil => rfl
  | cons f rest ih =>
    cases h : alGet m f.file with
    | none => simp [partitionFindings, ih, List.filter_cons, inlineP, h]
    | some hunks =>
      cases hl : isLineInDiff hunks f.line <;>
        simp [partitionFindings, ih, List.filter_cons, inlineP, h, hl]

theorem partitionFindings_length (findings : List ReviewFinding)
    (m : List (List Char × List DiffHunk)) :
    (partitionFindings findings m).1.length + (partitionFindings findings m).2.length =
      findings.length := by
  induction findings with
  | nil => rfl
  | cons f rest ih =>
    cases h : alGet m f.file with
    | none =>
      simp only [partitionFindings, h, List.length_cons]
      omega
    | some hunks =>
      cases hl : isLineInDiff hunks f.line <;>
        · simp only [partitionFindings, h, hl, List.length_cons, Bool.false_eq_true,
            if_false, if_true]
          omega

theorem isLineInDiff_iff (hunks : List DiffHunk) (L : Int) :
    isLineInDiff hunks L = true ↔
      ∃ h ∈ hunks, h.newStart ≤ L ∧ L < h.newStart + h.newCount := by
  simp [isLineInDiff, List.any_eq_true]

theorem isLineInDiff_empty_hunks (hunks : List DiffHunk)
    (hz : ∀ h ∈ hunks, h.newCount = 0) (L : Int) :
    isLineInDiff hunks L = false := by
  rw [← Bool.not_eq_true, isLineInDiff_iff]
  rintro ⟨h, hm, hle, hlt⟩
  have := hz h hm
  omega

/-- C2: `isLineInDiff` returns true exactly when some hunk satisfies
`newStart ≤ L < newStart + newCount`; for the hunk `{newStart := 10,
newCount := 5}` lines 10 and 14 are in the diff while 9 and 15 are not. -/
theorem C2_isLineInDiff_membership :
    (∀ (hunks : List DiffHunk) (L : Int),
        isLineInDiff hunks L = true ↔
          ∃ h ∈ hunks, h.newStart ≤ L ∧ L < h.newStart + h.newCount)
  ∧ isLineInDiff [⟨10, 5⟩] 10 = true
  ∧ isLineInDiff [⟨10, 5⟩] 14 = true
  ∧ isLineInDiff [⟨10, 5⟩] 9 = false
  ∧ isLineInDiff [⟨10, 5⟩] 15 = false :=
  ⟨isLineInDiff_iff, by decide, by decide, by decide, by decide⟩

/-- C3: `partitionFindings` sends each finding, in input order and with
multiplicity, to exactly one of the two output lists (it is the filter pair
of the placement test, so the lengths add up), and a finding whose file has
no entry in the hunk map always lands off-diff.  The final conjunct shows a
duplicated finding passing through as a duplicate. -/
theorem C3_partitionFindings_partition :
    (∀ (findings : List ReviewFinding) (m : List (List Char × List DiffHunk)),
        partitionFindings findings m =
          (findings.filter (inlineP m), findings.filter fun f => ! inlineP m f))
  ∧ (∀ (findings : List ReviewFinding) (m : List (List Char × List DiffHunk)),
        (partitionFindings findings m).1.length +
          (partitionFindings findings m).2.length = findings.length)
  ∧ (∀ (findings : List ReviewFinding) (m : List (List Char × List DiffHunk)),
        ∀ f ∈ findings, alGet m f.file = none →
          f ∈ (partitionFindings findings m).2)
  ∧ (∀ (f : ReviewFinding),
        partitionFindings [f, f] [] = ([], [f, f])) := by
  refine ⟨partitionFindings_eq_filter, partitionFindings_length, ?_, ?_⟩
  · intro findings m f hf hnone
    rw [partitionFindings_eq_filter]
    simp only [List.mem_filter, inlineP, hnone]
    exact ⟨hf, rfl⟩
  · intro f
    rfl

/-- C10: a hunk with `newCount = 0` (a pure-deletion hunk such as
`@@ -5,3 +4,0 @@`, whose parse the last conjunct shows) contains no line:
`isLineInDiff` is false on it alone and on any list of such hunks, so a
finding whose file's hunks all have `newCount = 0` is placed off-diff by
`partitionFindings` even though the file has an entry in the map. -/
theorem C10_zero_length_hunks_off_diff :
    (∀ (s L : Int), isLineInDiff [⟨s, 0⟩] L = false)
  ∧ (∀ hunks : List DiffHunk, (∀ h ∈ hunks, h.newCount = 0) →
        ∀ L : Int, isLineInDiff hunks L = false)
  ∧ (∀ (findings : List ReviewFinding) (m : List (List Char × List DiffHunk)),
        ∀ f ∈ findings, ∀ hs, alGet m f.file = some hs →
          (∀ h ∈ hs, h.newCount = 0) →
          f ∈ (partitionFindings findings m).2)
  ∧ parseDiffHunks ("diff --git a/f b/f\n@@ -5,3 +4,0 @@".toList) =
      [(['f'], [⟨4, 0⟩])] := by
  refine ⟨?_, ?_, ?_, by decide⟩
  · intro s L
    exact isLineInDiff_empty_hunks [⟨s, 0⟩] (by simp) L
  · exact isLineInDiff_empty_hunks
  · intro findings m f hf hs hget hz
    rw [partitionFindings_eq_filter]
    simp only [List.mem_filter, inlineP, hget]
    exact ⟨hf, by simp [isLineInDiff_empty_hunks hs hz f.line]⟩

theorem runAttempt_not_succeeded {w : Wrapper}
    (h : w.is_error = true ∨ w.subtype ≠ ("success".toList)) :
    runAttempt (.output w) = .failed (.cliError w.result) := by
  have hcond : (w.is_error || decide (w.subtype ≠ ("success".toList))) = true := by
    rcases h with h | h
    · simp [h]
    · simp only [Bool.or_eq_true, decide_eq_true_eq]
      exact Or.inr h
  simp only [runAttempt]
  rw [if_pos hcond]

/-- C4: in bounded mode the engine is invoked at most twice; a first-attempt
timeout surfaces the timeout error after exactly one invocation and no retry;
a first-attempt non-timeout failure is retried exactly once, after which the
second attempt's outcome (its error, its timeout, or its success) is
surfaced.  The last two conjuncts run the loop on concrete oracles. -/
theorem C4_bounded_mode_retry_policy :
    (∀ attempts : Nat → ExecOutcome, (analyzeDiff attempts).2 ≤ 2)
  ∧ (∀ attempts : Nat → ExecOutcome,
        runAttempt (attempts 0) = .timedOut →
          analyzeDiff attempts = (.error .timeout, 1))
  ∧ (∀ (attempts : Nat → ExecOutcome) (e : AnalyzeError),
        runAttempt (attempts 0) = .failed e →
          (analyzeDiff attempts).2 = 2
        ∧ (∀ e₂, runAttempt (attempts 1) = .failed e₂ →
              (analyzeDiff attempts).1 = .error e₂)
        ∧ (runAttempt (attempts 1) = .timedOut →
              (analyzeDiff attempts).1 = .error .timeout)
        ∧ (∀ fs, runAttempt (attempts 1) = .succeeded fs →
              (analyzeDiff attempts).1 = .ok fs))
  ∧ analyzeDiff (fun _ => .timeout) = (.error .timeout, 1)
  ∧ analyzeDiff (fun _ => .execError ("boom".toList)) =
      (.error (.execFailure ("boom".toList)), 2) := by
  refine ⟨?_, ?_, ?_, rfl, rfl⟩
  · intro attempts
    cases h0 : runAttempt (attempts 0) with
    | succeeded fs => simp [analyzeDiff, MAX_ATTEMPTS, analyzeGo, h0]
    | timedOut => simp [analyzeDiff, MAX_ATTEMPTS, analyzeGo, h0]
    | failed e =>
      cases h1 : runAttempt (attempts 1) <;>
        simp [analyzeDiff, MAX_ATTEMPTS, analyzeGo, h0, h1]
  · intro attempts h0
    simp [analyzeDiff, MAX_ATTEMPTS, analyzeGo, h0]
  · intro attempts e h0
    refine ⟨?_, ?_, ?_, ?_⟩
    · cases h1 : runAttempt (attempts 1) <;>
        simp [analyzeDiff, MAX_ATTEMPTS, analyzeGo, h0, h1]
    · intro e₂ h1
      simp [analyzeDiff, MAX_ATTEMPTS, analyzeGo, h0, h1]
    · intro h1
      simp [analyzeDiff, MAX_ATTEMPTS, analyzeGo, h0, h1]
    · intro fs h1
      simp [analyzeDiff, MAX_ATTEMPTS, analyzeGo, h0, h1]

/-- C5: when every envelope the engine produces has `is_error` set or a
subtype other than `success`, bounded mode ends in an error and never in a
successful (in particular never an empty-findings) result; the last conjunct
runs a concrete `is_error` envelope whose `result` field would parse. -/
theorem C5_error_envelope_is_hard_failure :
    (∀ attempts : Nat → ExecOutcome,
        (∀ i, i < MAX_ATTEMPTS → ∀ w, attempts i = .output w →
            w.is_error = true ∨ w.subtype ≠ ("success".toList)) →
          (∃ e, (analyzeDiff attempts).1 = .error e)
        ∧ ∀ fs, (analyzeDiff attempts).1 ≠ .ok fs)
  ∧ (analyzeDiff (fun _ => .output ⟨true, "success".toList, "oops".toList, some []⟩)).1 =
      .error (.cliError ("oops".toList)) := by
  constructor
  · intro attempts h
    have hns : ∀ i, i < MAX_ATTEMPTS → ∀ fs, runAttempt (attempts i) ≠ .succeeded fs := by
      intro i hi fs hsucc
      cases ho : attempts i with
      | timeout => rw [ho] at hsucc; exact absurd hsucc (by simp [runAttempt])
      | execError msg => rw [ho] at hsucc; exact absurd hsucc (by simp [runAttempt])
      | output w =>
        rw [ho, runAttempt_not_succeeded (h i hi w ho)] at hsucc
        exact absurd hsucc (by simp)
    have herr : ∃ e, (analyzeDiff attempts).1 = .error e := by
      cases h0 : runAttempt (attempts 0) with
      | succeeded fs => exact absurd h0 (hns 0 (by decide) fs)
      | timedOut => exact ⟨.timeout, by simp [analyzeDiff, MAX_ATTEMPTS, analyzeGo, h0]⟩
      | failed e =>
        cases h1 : runAttempt (attempts 1) with
        | succeeded fs => exact absurd h1 (hns 1 (by decide) fs)
        | timedOut => exact ⟨.timeout, by simp [analyzeDiff, MAX_ATTEMPTS, analyzeGo, h0, h1]⟩
        | failed e₂ => exact ⟨e₂, by simp [analyzeDiff, MAX_ATTEMPTS, analyzeGo, h0, h1]⟩
    refine ⟨herr, ?_⟩
    intro fs hok
    rcases herr with ⟨e, he⟩
    rw [hok] at he
    exact absurd he (by simp)
  · rfl

theorem metricsFold_spec (ms : List FindingMatch) (a b c : Nat) :
    ms.foldl metricsStep (a, b, c) =
      (a + ms.countP fun m => decide (m.actual ≠ none ∧ m.expected.classification = .GOOD),
       b + ms.countP fun m =>
            decide (m.actual ≠ none ∧
              (m.expected.classification = .MEH ∨ m.expected.classification = .BAD)),
       c + ms.countP fun m => decide (m.actual = none ∧ m.expected.classification = .GOOD)) := by
  induction ms generalizing a b c with
  | nil => simp
  | cons m rest ih =>
    rw [List.foldl_cons, List.countP_cons, List.countP_cons, List.countP_cons]
    cases hm : m.actual with
    | some v =>
      cases hc : m.expected.classification <;> (simp [metricsStep, hm, hc, ih]; omega)
    | none =>
      cases hc : m.expected.classification <;> simp [metricsStep, hm, hc, ih] <;> omega

theorem matched_actual_filter_length (r : MatchResult) :
    (r.matched.filter fun m => m.actual.isSome).length = matchedActualCount r := by
  rw [matchedActualCount, ← List.countP_eq_length_filter]
  refine List.countP_congr ?_
  intro m _
  cases hm : m.actual <;> simp [hm]

/-- C7: `computeMetrics` counts TP as matched pairs with a non-null actual
classified GOOD, FP as matched pairs with a non-null actual classified MEH or
BAD, FN as unmatched GOOD expected items only, and returns the claim's three
guarded ratios; zero expected and zero actual findings yield precision 1,
recall 1 and hallucination rate 0. -/
theorem C7_computeMetrics_definitions :
    (∀ r : MatchResult,
        computeMetrics r =
          { precision :=
              if tpCount r + fpCount r = 0 then 1
              else (tpCount r : Rat) / ((tpCount r : Rat) + (fpCount r : Rat))
            recall' :=
              if tpCount r + fnCount r = 0 then 1
              else (tpCount r : Rat) / ((tpCount r : Rat) + (fnCount r : Rat))
            hallucinationRate :=
              if matchedActualCount r + r.unmatched_actual.length = 0 then 0
              else (r.unmatched_actual.length : Rat) /
                ((matchedActualCount r : Rat) + (r.unmatched_actual.length : Rat)) })
  ∧ computeMetrics (matchFindings [] []) = ⟨1, 1, 0⟩ := by
  constructor
  · intro r
    have hfl := matched_actual_filter_length r
    simp only [computeMetrics]
    rw [metricsFold_spec, hfl]
    simp only [Nat.zero_add, Nat.cast_add]
    rfl
  · rfl

theorem stripPre_eq_append {p l r : List Char} (h : stripPre p l = some r) :
    l = p ++ r := by
  induction p generalizing l with
  | nil => simpa [stripPre] using h
  | cons c ps ih =>
    cases l with
    | nil => simp [stripPre] at h
    | cons d ds =>
      by_cases hcd : c = d
      · subst hcd
        simp only [stripPre, if_pos rfl] at h
        simpa using ih h
      · simp [stripPre, hcd] at h

theorem parseHunkHeader_shape {l : List Char}
    {x : Int × Option Int × Int × Option Int} (h : parseHunkHeader l = some x) :
    ∃ r, l = ("@@ -".toList) ++ r := by
  rw [parseHunkHeader] at h
  cases hs : stripPre ("@@ -".toList) l with
  | none => rw [hs] at h; simp at h
  | some r1 => exact ⟨r1, stripPre_eq_append hs⟩

theorem not_triple_plus_devnull {rest : List Char}
    (h : (("+++ ".toList).isPrefixOf ('+' :: rest)) = false) :
    (("+++ /dev/null".toList).isPrefixOf ('+' :: rest)) = false := by
  rw [Bool.eq_false_iff] at h ⊢
  intro hc
  rw [List.isPrefixOf_iff_prefix] at hc
  exact h (by rw [List.isPrefixOf_iff_prefix]; exact List.IsPrefix.trans (by decide) hc)

theorem not_triple_minus_devnull {rest : List Char}
    (h : (("--- ".toList).isPrefixOf ('-' :: rest)) = false) :
    (("--- /dev/null".toList).isPrefixOf ('-' :: rest)) = false := by
  rw [Bool.eq_false_iff] at h ⊢
  intro hc
  rw [List.isPrefixOf_iff_prefix] at hc
  exact h (by rw [List.isPrefixOf_iff_prefix]; exact List.IsPrefix.trans (by decide) hc)

theorem detStep_addition (st : DetState) (cur : DiffFile) (rest : List Char)
    (hcur : st.current = some cur)
    (h3 : (("+++ ".toList).isPrefixOf ('+' :: rest)) = false) :
    detStep st ('+' :: rest) =
      { st with
        current := some { cur with
          lines := cur.lines ++ [⟨.addition, none, some st.newLineNum, rest⟩] }
        newLineNum := st.newLineNum + 1 } := by
  have hdev := not_triple_plus_devnull h3
  simp [List.isPrefixOf] at h3 hdev
  simp [detStep, fileHeaderTarget, stripPre, parseHunkHeader, isMetadataLine, hcur, h3,
    hdev, List.isPrefixOf]

theorem detStep_deletion (st : DetState) (cur : DiffFile) (rest : List Char)
    (hcur : st.current = some cur)
    (h3 : (("--- ".toList).isPrefixOf ('-' :: rest)) = false) :
    detStep st ('-' :: rest) =
      { st with
        current := some { cur with
          lines := cur.lines ++ [⟨.deletion, some st.oldLineNum, none, rest⟩] }
        oldLineNum := st.oldLineNum + 1 } := by
  have hdev := not_triple_minus_devnull h3
  simp [List.isPrefixOf] at h3 hdev
  simp [detStep, fileHeaderTarget, stripPre, parseHunkHeader, isMetadataLine, hcur, h3,
    hdev, List.isPrefixOf]

theorem detStep_context (st : DetState) (cur : DiffFile) (rest : List Char)
    (hcur : st.current = some cur) :
    detStep st (' ' :: rest) =
      { st with
        current := some { cur with
          lines := cur.lines ++
            [⟨.context, some st.oldLineNum, some st.newLineNum, rest⟩] }
        oldLineNum := st.oldLineNum + 1
        newLineNum := st.newLineNum + 1 } := by
  simp [detStep, fileHeaderTarget, stripPre, parseHunkHeader, isMetadataLine, hcur,
    List.isPrefixOf]

theorem detStep_hunk_header (st : DetState) (cur : DiffFile) (line : List Char)
    (o : Int) (oc : Option Int) (n : Int) (nc : Option Int)
    (hcur : st.current = some cur)
    (hh : parseHunkHeader line = some (o, oc, n, nc)) :
    detStep st line =
      { st with
        oldLineNum := o
        newLineNum := n
        current := some { cur with
          lines := cur.lines ++ [⟨.hunkHeader, none, none, line⟩] } } := by
  obtain ⟨r, rfl⟩ := parseHunkHeader_shape hh
  have hh' : parseHunkHeader ('@' :: '@' :: ' ' :: '-' :: r) = some (o, oc, n, nc) := hh
  simp [detStep, fileHeaderTarget, stripPre, isMetadataLine, hcur, hh', List.isPrefixOf]

theorem detStep_rename_from (st : DetState) (cur : DiffFile) (line : List Char)
    (hcur : st.current = some cur)
    (h : (("rename from ".toList).isPrefixOf line) = true) :
    detStep st line =
      { st with current := some { cur with oldFilename := line.drop 12, status := .renamed } } := by
  rw [List.isPrefixOf_iff_prefix] at h
  obtain ⟨r, rfl⟩ := h
  simp [detStep, fileHeaderTarget, stripPre, hcur, List.isPrefixOf]

theorem detStep_rename_to (st : DetState) (cur : DiffFile) (line : List Char)
    (hcur : st.current = some cur)
    (h : (("rename to ".toList).isPrefixOf line) = true) :
    detStep st line =
      { st with current := some { cur with filename := line.drop 10, status := .renamed } } := by
  rw [List.isPrefixOf_iff_prefix] at h
  obtain ⟨r, rfl⟩ := h
  simp [detStep, fileHeaderTarget, stripPre, hcur, List.isPrefixOf]

theorem detStep_source_devnull (st : DetState) (cur : DiffFile) (line : List Char)
    (hcur : st.current = some cur)
    (h : (("--- /dev/null".toList).isPrefixOf line) = true) :
    detStep st line = { st with current := some { cur with status := .added } } := by
  rw [List.isPrefixOf_iff_prefix] at h
  obtain ⟨r, rfl⟩ := h
  simp [detStep, fileHeaderTarget, stripPre, hcur, List.isPrefixOf]

theorem detStep_target_devnull (st : DetState) (cur : DiffFile) (line : List Char)
    (hcur : st.current = some cur)
    (h : (("+++ /dev/null".toList).isPrefixOf line) = true) :
    detStep st line = { st with current := some { cur with status := .deleted } } := by
  rw [List.isPrefixOf_iff_prefix] at h
  obtain ⟨r, rfl⟩ := h
  simp [detStep, fileHeaderTarget, stripPre, hcur, List.isPrefixOf]

theorem detStep_status_preserved (st : DetState) (cur : DiffFile) (line : List Char)
    (hcur : st.current = some cur)
    (hfh : fileHeaderTarget line = none)
    (hrf : (("rename from ".toList).isPrefixOf line) = false)
    (hrt : (("rename to ".toList).isPrefixOf line) = false)
    (hsd : (("--- /dev/null".toList).isPrefixOf line) = false)
    (htd : (("+++ /dev/null".toList).isPrefixOf line) = false) :
    ((detStep st line).current).map DiffFile.status = some cur.status := by
  simp only [detStep, hfh, hcur, hrf, hrt, hsd, htd, Bool.false_eq_true, if_false]
  cases hmd : isMetadataLine line with
  | true => simp [hcur]
  | false =>
    simp only [hmd, Bool.false_eq_true, if_false]
    cases hbs : (("\\ ".toList).isPrefixOf line) with
    | true => simp [hcur]
    | false =>
      simp only [hbs, Bool.false_eq_true, if_false]
      cases hph : parseHunkHeader line with
      | some x =>
        rcases x with ⟨o, oc, n, nc⟩
        simp [hph]
      | none =>
        simp only [hph]
        split <;> simp [hcur]

/-- C1: `parseDetailedDiff` numbers content lines with two counters that every
hunk header resets to its declared old/new start values: a content line
starting `+` (and not the `+++ ` marker) is an addition at the current
`newLineNum` (old unset) and bumps it; one starting `-` (and not `--- `) is a
deletion at the current `oldLineNum` (new unset) and bumps it; one starting
with a space is context at both counters and bumps both.  The fifth conjunct
is the two-hunk file `@@ -1,3 +1,3 @@` / `@@ -10,3 +10,3 @@`, whose counters
are 10 right after the second header although the first hunk stopped at 2;
the sixth is the `@@ -1,3 +1,4 @@` round trip where the two added lines get
`newLineNum` 2 and 3 and the trailing context 4. -/
theorem C1_parseDetailedDiff_counters :
    (∀ (st : DetState) (cur : DiffFile) (rest : List Char),
        st.current = some cur →
        (("+++ ".toList).isPrefixOf ('+' :: rest)) = false →
        detStep st ('+' :: rest) =
          { st with
            current := some { cur with
              lines := cur.lines ++ [⟨.addition, none, some st.newLineNum, rest⟩] }
            newLineNum := st.newLineNum + 1 })
  ∧ (∀ (st : DetState) (cur : DiffFile) (rest : List Char),
        st.current = some cur →
        (("--- ".toList).isPrefixOf ('-' :: rest)) = false →
        detStep st ('-' :: rest) =
          { st with
            current := some { cur with
              lines := cur.lines ++ [⟨.deletion, some st.oldLineNum, none, rest⟩] }
            oldLineNum := st.oldLineNum + 1 })
  ∧ (∀ (st : DetState) (cur : DiffFile) (rest : List Char),
        st.current = some cur →
        detStep st (' ' :: rest) =
          { st with
            current := some { cur with
              lines := cur.lines ++
                [⟨.context, some st.oldLineNum, some st.newLineNum, rest⟩] }
            oldLineNum := st.oldLineNum + 1
            newLineNum := st.newLineNum + 1 })
  ∧ (∀ (st : DetState) (cur : DiffFile) (line : List Char)
        (o : Int) (oc : Option Int) (n : Int) (nc : Option Int),
        st.current = some cur →
        parseHunkHeader line = some (o, oc, n, nc) →
        detStep st line =
          { st with
            oldLineNum := o
            newLineNum := n
            current := some { cur with
              lines := cur.lines ++ [⟨.hunkHeader, none, none, line⟩] } })
  ∧ parseDetailedDiff
        ("diff --git a/f b/f\n@@ -1,3 +1,3 @@\n lineA\n@@ -10,3 +10,3 @@\n lineB".toList) =
      [{ filename := ['f'], oldFilename := ['f'], status := .modified,
         lines := [⟨.hunkHeader, none, none, "@@ -1,3 +1,3 @@".toList⟩,
                   ⟨.context, some 1, some 1, "lineA".toList⟩,
                   ⟨.hunkHeader, none, none, "@@ -10,3 +10,3 @@".toList⟩,
                   ⟨.context, some 10, some 10, "lineB".toList⟩] }]
  ∧ parseDetailedDiff
        ("diff --git a/f b/f\n@@ -1,3 +1,4 @@\n ctx1\n-del\n+add1\n+add2\n ctx2".toList) =
      [{ filename := ['f'], oldFilename := ['f'], status := .modified,
         lines := [⟨.hunkHeader, none, none, "@@ -1,3 +1,4 @@".toList⟩,
                   ⟨.context, some 1, some 1, "ctx1".toList⟩,
                   ⟨.deletion, some 2, none, "del".toList⟩,
                   ⟨.addition, none, some 2, "add1".toList⟩,
                   ⟨.addition, none, some 3, "add2".toList⟩,
                   ⟨.context, some 3, some 4, "ctx2".toList⟩] }] :=
  ⟨detStep_addition, detStep_deletion, detStep_context, detStep_hunk_header,
    by decide, by decide⟩

/-- C8 as frozen is false on the code: the claim says a new-file marker whose
*target* is the null device sets `status = added`, but `parseDetailedDiff`
maps the target-side `+++ /dev/null` marker to `status = deleted` (and the
source-side `--- /dev/null` marker to `added`), as this concrete diff whose
only marker line is `+++ /dev/null` shows. -/
theorem C8_counterexample_target_devnull_is_deleted :
    parseDetailedDiff ("diff --git a/f b/f\n+++ /dev/null".toList) =
      [{ filename := ['f'], oldFilename := ['f'], status := .deleted, lines := [] }]
  ∧ DFStatus.deleted ≠ DFStatus.added :=
  ⟨by decide, by decide⟩

/-- C8 (amended): a `rename from X` line sets the old filename to `X`, a
`rename to Y` line sets the filename to `Y`, and either marker sets
`status = renamed`; a new-file marker whose *source* is the null device
(`--- /dev/null`) sets `status = added`; a deleted-file marker whose *target*
is the null device (`+++ /dev/null`) sets `status = deleted`; a line carrying
none of the markers leaves the status unchanged, so a file with no marker
keeps the initial `modified`.  The last conjunct is the new-file diff
`@@ -0,0 +1,2 @@` whose single DiffFile is `added` with additions numbered
1 and 2. -/
theorem C8_file_status_markers :
    (∀ (st : DetState) (cur : DiffFile) (line : List Char),
        st.current = some cur →
        (("rename from ".toList).isPrefixOf line) = true →
        detStep st line =
          { st with current := some { cur with
              oldFilename := line.drop 12, status := .renamed } })
  ∧ (∀ (st : DetState) (cur : DiffFile) (line : List Char),
        st.current = some cur →
        (("rename to ".toList).isPrefixOf line) = true →
        detStep st line =
          { st with current := some { cur with
              filename := line.drop 10, status := .renamed } })
  ∧ (∀ (st : DetState) (cur : DiffFile) (line : List Char),
        st.current = some cur →
        (("--- /dev/null".toList).isPrefixOf line) = true →
        detStep st line = { st with current := some { cur with status := .added } })
  ∧ (∀ (st : DetState) (cur : DiffFile) (line : List Char),
        st.current = some cur →
        (("+++ /dev/null".toList).isPrefixOf line) = true →
        detStep st line = { st with current := some { cur with status := .deleted } })
  ∧ (∀ (st : DetState) (cur : DiffFile) (line : List Char),
        st.current = some cur →
        fileHeaderTarget line = none →
        (("rename from ".toList).isPrefixOf line) = false →
        (("rename to ".toList).isPrefixOf line) = false →
        (("--- /dev/null".toList).isPrefixOf line) = false →
        (("+++ /dev/null".toList).isPrefixOf line) = false →
        ((detStep st line).current).map DiffFile.status = some cur.status)
  ∧ parseDetailedDiff
        ("diff --git a/f b/f\nnew file mode 100644\n--- /dev/null\n+++ b/f\n@@ -0,0 +1,2 @@\n+line 1\n+line 2".toList) =
      [{ filename := ['f'], oldFilename := ['f'], status := .added,
         lines := [⟨.hunkHeader, none, none, "@@ -0,0 +1,2 @@".toList⟩,
                   ⟨.addition, none, some 1, "line 1".toList⟩,
                   ⟨.addition, none, some 2, "line 2".toList⟩] }] :=
  ⟨detStep_rename_from, detStep_rename_to, detStep_source_devnull,
    detStep_target_devnull, detStep_status_preserved, by decide⟩

theorem optCount_getD_nonneg {r : List Char} {v : Option Int} {r' : List Char}
    (h : parseHunkHeader.optCount r = some (v, r')) : 0 ≤ v.getD 1 := by
  unfold parseHunkHeader.optCount at h
  split at h
  · rcases htd : takeDigits _ with ⟨ds, rr⟩
    rw [htd] at h
    by_cases hds : ds = []
    · simp [hds] at h
    · simp only [hds, if_false] at h
      obtain ⟨hv, _⟩ := Prod.mk.injEq .. ▸ Option.some.inj h
      rw [← hv]
      simp
  · obtain ⟨hv, _⟩ := Prod.mk.injEq .. ▸ Option.some.inj h
    rw [← hv]
    norm_num

theorem parseHunkHeader_nonneg {l : List Char} {o : Int} {oc : Option Int}
    {n : Int} {nc : Option Int} (h : parseHunkHeader l = some (o, oc, n, nc)) :
    0 ≤ n ∧ 0 ≤ nc.getD 1 := by
  rw [parseHunkHeader] at h
  split at h
  · exact Option.noConfusion h
  rename_i r1 hs1
  rcases htd1 : takeDigits r1 with ⟨ds1, r2⟩
  simp only [htd1] at h
  split at h
  · exact Option.noConfusion h
  split at h
  · exact Option.noConfusion h
  rename_i oc' r3 hoc
  split at h
  · exact Option.noConfusion h
  rename_i r4 hs2
  rcases htd2 : takeDigits r4 with ⟨ds2, r5⟩
  simp only [htd2] at h
  split at h
  · exact Option.noConfusion h
  split at h
  · exact Option.noConfusion h
  rename_i nc' r6 hnc
  split at h
  · exact Option.noConfusion h
  injection h with h'
  injection h' with h1 h2
  injection h2 with h3 h4
  injection h4 with h5 h6
  subst h5
  subst h6
  constructor
  · simp
  · exact optCount_getD_nonneg hnc

theorem alGet_mem {α : Type} {m : List (List Char × α)} {k : List Char} {v : α}
    (h : alGet m k = some v) : (k, v) ∈ m := by
  induction m with
  | nil => simp [alGet] at h
  | cons e rest ih =>
    by_cases hk : e.1 = k
    · simp only [alGet, hk, if_pos rfl] at h
      obtain rfl := Option.some.inj h
      simp [← hk]
    · simp only [alGet, hk, if_false] at h
      exact List.mem_cons_of_mem _ (ih h)

/-- The hunk-field invariant threaded through `parseDiffHunks`' scan. -/
theorem diffHunksStep_nonneg
    (st : List (List Char × List DiffHunk) × Option (List Char)) (line : List Char)
    (hm : ∀ e ∈ st.1, ∀ h ∈ e.2, 0 ≤ h.newStart ∧ 0 ≤ h.newCount) :
    ∀ e ∈ (diffHunksStep st line).1, ∀ h ∈ e.2, 0 ≤ h.newStart ∧ 0 ≤ h.newCount := by
  unfold diffHunksStep
  rcases hft : fileHeaderTarget line with _ | file
  · rcases hph : parseHunkHeader line with _ | ⟨o, oc, n, nc⟩
    · exact hm
    · rcases hcf : st.2 with _ | f
      · exact hm
      · intro e he h hh
        simp only [alPush, List.mem_map] at he
        obtain ⟨e₀, he₀, hrw⟩ := he
        by_cases hek : e₀.1 = f
        · rw [if_pos hek] at hrw
          rw [← hrw] at hh
          simp only [List.mem_append, List.mem_singleton] at hh
          rcases hh with hh | rfl
          · exact hm e₀ he₀ h hh
          · have := parseHunkHeader_nonneg hph
            exact ⟨this.1, this.2⟩
        · rw [if_neg hek] at hrw
          rw [← hrw] at hh
          exact hm e₀ he₀ h hh
  · intro e he h hh
    simp only [alInit] at he
    rcases halg : alGet st.1 file with _ | v <;> rw [halg] at he
    · rcases List.mem_append.mp he with he | he
      · exact hm e he h hh
      · obtain rfl := List.mem_singleton.mp he
        simp at hh
    · exact hm e he h hh

theorem parseDiffHunks_fold_nonneg (lines : List (List Char))
    (st : List (List Char × List DiffHunk) × Option (List Char))
    (hm : ∀ e ∈ st.1, ∀ h ∈ e.2, 0 ≤ h.newStart ∧ 0 ≤ h.newCount) :
    ∀ e ∈ (lines.foldl diffHunksStep st).1, ∀ h ∈ e.2,
      0 ≤ h.newStart ∧ 0 ≤ h.newCount := by
  induction lines generalizing st with
  | nil => exact hm
  | cons l rest ih => exact ih _ (diffHunksStep_nonneg st l hm)

/-- C9 as frozen is false on the code: git emits `+0,0` new-side ranges for
pure deletions and `parseDiffHunks` stores the header's values unchecked, so
the hunk produced from `@@ -1,2 +0,0 @@` has `newStart = 0`, violating the
claimed invariant `newStart ≥ 1`. -/
theorem C9_counterexample_zero_newStart :
    parseDiffHunks ("diff --git a/f b/f\n@@ -1,2 +0,0 @@".toList) =
      [(['f'], [⟨0, 0⟩])]
  ∧ ¬ ((1 : Int) ≤ (DiffHunk.mk 0 0).newStart) :=
  ⟨by decide, by decide⟩

/-- C9 (amended): every `DiffHunk` produced by `parseDiffHunks`, for every
input diff text, satisfies `newStart ≥ 0` and `newCount ≥ 0` (the fields come
from `parseInt` on digit runs, with the omitted-count default 1; the header's
values are stored unchecked, so `newStart ≥ 1` does not hold in general). -/
theorem C9_parseDiffHunks_fields_nonneg :
    (∀ (diff : List Char) (file : List Char) (hs : List DiffHunk),
        alGet (parseDiffHunks diff) file = some hs →
        ∀ h ∈ hs, 0 ≤ h.newStart ∧ 0 ≤ h.newCount)
  ∧ parseDiffHunks ("diff --git a/f b/f\n@@ -5,3 +4 @@\n".toList) =
      [(['f'], [⟨4, 1⟩])] := by
  constructor
  · intro diff file hs hget h hmem
    have hinv := parseDiffHunks_fold_nonneg (splitLines diff) ([], none) (by simp)
    exact hinv (file, hs) (alGet_mem hget) h hmem
  · decide

theorem charsLt_irrefl (l : List Char) : charsLt l l = false := by
  induction l with
  | nil => rfl
  | cons c cs ih => simp [charsLt, ih]

theorem charsLt_asymm {x y : List Char} (h : charsLt x y = true) :
    charsLt y x = false := by
  induction x generalizing y with
  | nil =>
    cases y with
    | nil => simp [charsLt] at h
    | cons b bs => rfl
  | cons a as ih =>
    cases y with
    | nil => simp [charsLt] at h
    | cons b bs =>
      by_cases hab : a.toNat < b.toNat
      · have hba : ¬ b.toNat < a.toNat := by omega
        simp [charsLt, hab, hba]
      · by_cases hba : b.toNat < a.toNat
        · simp [charsLt, hab, hba] at h
        · simp only [charsLt, if_neg hab, if_neg hba] at h
          simp only [charsLt, if_neg hab, if_neg hba]
          exact ih h

theorem evalKeyLt_asymm {a b : EvalFinding} (h : evalKeyLt a b = true) :
    evalKeyLt b a = false := by
  simp only [evalKeyLt, Bool.or_eq_true, Bool.and_eq_true, beq_iff_eq,
    decide_eq_true_eq] at h
  rcases h with h | ⟨hfe, hlt⟩
  · have h1 := charsLt_asymm h
    have h2 : b.file ≠ a.file := by
      intro he
      rw [he] at h
      simp [charsLt_irrefl] at h
    simp [evalKeyLt, h1, h2]
  · have h1 : charsLt b.file a.file = false := by rw [hfe]; exact charsLt_irrefl _
    have h2 : ¬ b.line < a.line := by omega
    simp [evalKeyLt, h1, h2]

theorem sortInsert_perm (e : EvalFinding) (l : List EvalFinding) :
    (sortInsert e l).Perm (e :: l) := by
  induction l with
  | nil => exact List.Perm.refl _
  | cons x xs ih =>
    by_cases hx : evalKeyLt x e = true
    · simp only [sortInsert, if_pos hx]
      exact (ih.cons x).trans (List.Perm.swap e x xs)
    · rw [Bool.not_eq_true] at hx
      simp only [sortInsert, hx, Bool.false_eq_true, if_false]
      exact List.Perm.refl _

theorem sortExpected_perm (l : List EvalFinding) : (sortExpected l).Perm l := by
  induction l with
  | nil => exact List.Perm.refl _
  | cons x xs ih => exact (sortInsert_perm x (sortExpected xs)).trans (ih.cons x)

theorem mem_sortInsert {y e : EvalFinding} {l : List EvalFinding} :
    y ∈ sortInsert e l ↔ y = e ∨ y ∈ l :=
  ⟨fun h => by simpa using (sortInsert_perm e l).mem_iff.mp h,
   fun h => (sortInsert_perm e l).mem_iff.mpr (by simpa using h)⟩

theorem charToNatInj {a b : Char} (h : a.toNat = b.toNat) : a = b := by
  rw [← Char.ofNat_toNat a, ← Char.ofNat_toNat b, h]

theorem charsLt_connex {x y : List Char} (h1 : charsLt x y = false)
    (h2 : charsLt y x = false) : x = y := by
  induction x generalizing y with
  | nil =>
    cases y with
    | nil => rfl
    | cons b bs => simp [charsLt] at h1
  | cons a as ih =>
    cases y with
    | nil => simp [charsLt] at h2
    | cons b bs =>
      by_cases hab : a.toNat < b.toNat
      · simp [charsLt, hab] at h1
      · by_cases hba : b.toNat < a.toNat
        · simp [charsLt, hba] at h2
        · simp only [charsLt, if_neg hab, if_neg hba] at h1 h2
          have : a = b := charToNatInj (by omega)
          rw [this, ih h1 h2]

theorem charsLt_trans_of_not {x y e : List Char} (h1 : charsLt y x = false)
    (h2 : charsLt y e = true) : charsLt x e = true := by
  induction y generalizing x e with
  | nil =>
    cases e with
    | nil => simp [charsLt] at h2
    | cons b bs =>
      cases x with
      | nil => rfl
      | cons a as => simp [charsLt] at h1
  | cons c cs ih =>
    cases e with
    | nil => simp [charsLt] at h2
    | cons b bs =>
      cases x with
      | nil => rfl
      | cons a as =>
        by_cases hca : c.toNat < a.toNat
        · simp [charsLt, hca] at h1
        · by_cases hcb : c.toNat < b.toNat
          · have hab : a.toNat < b.toNat := by omega
            simp [charsLt, hab]
          · by_cases hbc : b.toNat < c.toNat
            · simp [charsLt, hcb, hbc] at h2
            · simp only [charsLt, if_neg hcb, if_neg hbc] at h2
              by_cases hac : a.toNat < c.toNat
              · have hab : a.toNat < b.toNat := by omega
                simp [charsLt, hab]
              · simp only [charsLt, if_neg hca, if_neg hac] at h1
                have hab : ¬ a.toNat < b.toNat := by omega
                have hba : ¬ b.toNat < a.toNat := by omega
                simp only [charsLt, if_neg hab, if_neg hba]
                exact ih h1 h2

theorem evalKeyLt_le_lt_trans {x y e : EvalFinding} (hyx : evalKeyLt y x = false)
    (hye : evalKeyLt y e = true) : evalKeyLt x e = true := by
  simp only [evalKeyLt, Bool.or_eq_false_iff, Bool.and_eq_false_iff,
    beq_eq_false_iff_ne, ne_eq, decide_eq_false_iff_not] at hyx
  simp only [evalKeyLt, Bool.or_eq_true, Bool.and_eq_true, beq_iff_eq,
    decide_eq_true_eq] at hye ⊢
  obtain ⟨hfyx, hsnd⟩ := hyx
  rcases hye with hfe | ⟨hfe, hle⟩
  · exact Or.inl (charsLt_trans_of_not hfyx hfe)
  · by_cases hfx : y.file = x.file
    · refine Or.inr ⟨hfx.symm.trans hfe, ?_⟩
      rcases hsnd with hne | hnlt
      · exact absurd hfx hne
      · omega
    · have hxy : charsLt x.file y.file = true := by
        by_contra hc
        rw [Bool.not_eq_true] at hc
        exact hfx (charsLt_connex hc hfyx).symm
      rw [hfe] at hxy
      exact Or.inl hxy

theorem sortInsert_pairwise (e : EvalFinding) (l : List EvalFinding)
    (hl : l.Pairwise fun a b => evalKeyLt b a = false) :
    (sortInsert e l).Pairwise fun a b => evalKeyLt b a = false := by
  induction l with
  | nil => simp [sortInsert]
  | cons x xs ih =>
    rcases List.pairwise_cons.mp hl with ⟨hx, hxs⟩
    by_cases hxe : evalKeyLt x e = true
    · simp only [sortInsert, if_pos hxe]
      refine List.pairwise_cons.mpr ⟨?_, ih hxs⟩
      intro y hy
      rcases mem_sortInsert.mp hy with rfl | hy
      · exact evalKeyLt_asymm hxe
      · exact hx y hy
    · rw [Bool.not_eq_true] at hxe
      simp only [sortInsert, hxe, Bool.false_eq_true, if_false]
      refine List.pairwise_cons.mpr ⟨?_, hl⟩
      intro y hy
      rcases List.mem_cons.mp hy with rfl | hy
      · exact hxe
      · by_contra hye
        rw [Bool.not_eq_false] at hye
        have hcon := evalKeyLt_le_lt_trans (hx y hy) hye
        rw [hcon] at hxe
        exact absurd hxe (by simp)

theorem sortExpected_pairwise (l : List EvalFinding) :
    (sortExpected l).Pairwise fun a b => evalKeyLt b a = false := by
  induction l with
  | nil => simp [sortExpected]
  | cons x xs ih => exact sortInsert_pairwise x (sortExpected xs) ih

theorem findBestAux_spec (exp : EvalFinding) (l : List ReviewFinding) :
    ∀ (i : Nat) (best : Option (Nat × Nat)),
      (findBestAux exp l i best = none ↔ best = none ∧ ∀ a ∈ l, ¬ withinWindow exp a)
      ∧ (∀ k d, findBestAux exp l i best = some (k, d) →
          (best = some (k, d) ∧ ∀ a ∈ l, withinWindow exp a → d ≤ findingDist exp a)
          ∨ (∃ m a, l.get? m = some a ∧ k = i + m ∧ withinWindow exp a ∧
              findingDist exp a = d
              ∧ (∀ p : Nat × Nat, best = some p → d < p.2)
              ∧ (∀ m' b, l.get? m' = some b → withinWindow exp b →
                    d ≤ findingDist exp b)
              ∧ (∀ m' b, m' < m → l.get? m' = some b → withinWindow exp b →
                    d < findingDist exp b))) := by
  induction l with
  | nil =>
    intro i best
    constructor
    · simp [findBestAux]
    · intro k d h
      simp only [findBestAux] at h
      exact Or.inl ⟨h, by simp⟩
  | cons a rest ih =>
    intro i best
    -- the three possible step shapes
    by_cases hq : withinWindow exp a
    · obtain ⟨hf, h5⟩ := hq
      rcases hbest : best with _ | ⟨bi, bd⟩
      · -- qualifying head, empty best: head becomes the running best
        have hstep : findBestAux exp (a :: rest) i none =
            findBestAux exp rest (i + 1) (some (i, findingDist exp a)) := by
          simp [findBestAux, hf, findingDist] at h5 ⊢
          simp [h5]
        constructor
        · rw [hstep, (ih (i + 1) (some (i, findingDist exp a))).1]
          simp [withinWindow, hf, h5]
        · intro k d hout
          rw [hstep] at hout
          rcases (ih (i + 1) (some (i, findingDist exp a))).2 k d hout with
            ⟨hbe, hmin⟩ | ⟨m, b, hget, hk, hqb, hdist, hbeat, hmin, hstrict⟩
          · -- the head survived the rest of the scan
            have h1 := Option.some.inj hbe
            have hk' : i = k := congrArg Prod.fst h1
            have hd' : findingDist exp a = d := congrArg Prod.snd h1
            subst hk'
            subst hd'
            refine Or.inr ⟨0, a, rfl, by omega, ⟨hf, h5⟩, rfl, by simp, ?_, ?_⟩
            · intro m' c hget hqc
              cases m' with
              | zero => cases Option.some.inj hget; omega
              | succ m'' =>
                rw [List.get?_cons_succ] at hget
                exact hmin c (List.get?_mem hget) hqc
            · intro m' c hm' hget hqc
              omega
          · -- some later element strictly beat the head
            have hda : d < findingDist exp a := hbeat (i, findingDist exp a) rfl
            refine Or.inr ⟨m + 1, b, hget, by omega, hqb, hdist, by simp, ?_, ?_⟩
            · intro m' c hget' hqc
              cases m' with
              | zero => cases Option.some.inj hget'; omega
              | succ m'' => exact hmin m'' c hget' hqc
            · intro m' c hm' hget' hqc
              cases m' with
              | zero => cases Option.some.inj hget'; omega
              | succ m'' => exact hstrict m'' c (by omega) hget' hqc
      · -- qualifying head, best present
        by_cases hlt : findingDist exp a < bd
        · have hstep : findBestAux exp (a :: rest) i (some (bi, bd)) =
              findBestAux exp rest (i + 1) (some (i, findingDist exp a)) := by
            simp [findBestAux, hf, findingDist] at h5 hlt ⊢
            simp [h5, hlt]
          constructor
          · rw [hstep, (ih (i + 1) (some (i, findingDist exp a))).1]
            simp
          · intro k d hout
            rw [hstep] at hout
            rcases (ih (i + 1) (some (i, findingDist exp a))).2 k d hout with
              ⟨hbe, hmin⟩ | ⟨m, b, hget, hk, hqb, hdist, hbeat, hmin, hstrict⟩
            · have h1 := Option.some.inj hbe
              have hk' : i = k := congrArg Prod.fst h1
              have hd' : findingDist exp a = d := congrArg Prod.snd h1
              subst hk'
              subst hd'
              refine Or.inr ⟨0, a, rfl, by omega, ⟨hf, h5⟩, rfl, ?_, ?_, ?_⟩
              · intro p hp
                cases Option.some.inj hp
                omega
              · intro m' c hget hqc
                cases m' with
                | zero => cases Option.some.inj hget; omega
                | succ m'' =>
                  rw [List.get?_cons_succ] at hget
                  exact hmin c (List.get?_mem hget) hqc
              · intro m' c hm' hget hqc
                omega
            · have hda : d < findingDist exp a := hbeat (i, findingDist exp a) rfl
              refine Or.inr ⟨m + 1, b, hget, by omega, hqb, hdist, ?_, ?_, ?_⟩
              · intro p hp
                cases Option.some.inj hp
                omega
              · intro m' c hget' hqc
                cases m' with
                | zero => cases Option.some.inj hget'; omega
                | succ m'' => exact hmin m'' c hget' hqc
              · intro m' c hm' hget' hqc
                cases m' with
                | zero => cases Option.some.inj hget'; omega
                | succ m'' => exact hstrict m'' c (by omega) hget' hqc
        · -- qualifying head but not closer than the running best: skip
          have hstep : findBestAux exp (a :: rest) i (some (bi, bd)) =
              findBestAux exp rest (i + 1) (some (bi, bd)) := by
            simp [findBestAux, hf, findingDist] at hlt ⊢
            simp [hlt]
          constructor
          · rw [hstep, (ih (i + 1) (some (bi, bd))).1]
            simp
          · intro k d hout
            rw [hstep] at hout
            rcases (ih (i + 1) (some (bi, bd))).2 k d hout with
              ⟨hbe, hmin⟩ | ⟨m, b, hget, hk, hqb, hdist, hbeat, hmin, hstrict⟩
            · have h1 := Option.some.inj hbe
              have hk' : bi = k := congrArg Prod.fst h1
              have hd' : bd = d := congrArg Prod.snd h1
              subst hk'
              subst hd'
              refine Or.inl ⟨rfl, ?_⟩
              intro c hc hqc
              rcases List.mem_cons.mp hc with rfl | hc
              · omega
              · exact hmin c hc hqc
            · have hbd : d < bd := by
                have := hbeat (bi, bd) rfl
                exact this
              refine Or.inr ⟨m + 1, b, hget, by omega, hqb, hdist, ?_, ?_, ?_⟩
              · intro p hp
                cases Option.some.inj hp
                omega
              · intro m' c hget' hqc
                cases m' with
                | zero => cases Option.some.inj hget'; omega
                | succ m'' => exact hmin m'' c hget' hqc
              · intro m' c hm' hget' hqc
                cases m' with
                | zero => cases Option.some.inj hget'; omega
                | succ m'' => exact hstrict m'' c (by omega) hget' hqc
    · -- non-qualifying head: skip
      have hstep : findBestAux exp (a :: rest) i best =
          findBestAux exp rest (i + 1) best := by
        by_cases hf : a.file = exp.file
        · have h5 : ¬ (a.line - exp.line).natAbs ≤ 5 := by
            intro hc
            exact hq ⟨hf, hc⟩
          rcases best with _ | ⟨bi, bd⟩ <;> simp [findBestAux, hf, h5]
        · simp [findBestAux, hf]
      constructor
      · rw [hstep, (ih (i + 1) best).1]
        constructor
        · rintro ⟨rfl, hall⟩
          refine ⟨rfl, ?_⟩
          intro c hc
          rcases List.mem_cons.mp hc with rfl | hc
          · exact hq
          · exact hall c hc
        · rintro ⟨rfl, hall⟩
          exact ⟨rfl, fun c hc => hall c (List.mem_cons_of_mem a hc)⟩
      · intro k d hout
        rw [hstep] at hout
        rcases (ih (i + 1) best).2 k d hout with
          ⟨hbe, hmin⟩ | ⟨m, b, hget, hk, hqb, hdist, hbeat, hmin, hstrict⟩
        · refine Or.inl ⟨hbe, ?_⟩
          intro c hc hqc
          rcases List.mem_cons.mp hc with rfl | hc
          · exact absurd hqc hq
          · exact hmin c hc hqc
        · refine Or.inr ⟨m + 1, b, hget, by omega, hqb, hdist, hbeat, ?_, ?_⟩
          · intro m' c hget' hqc
            cases m' with
            | zero => cases Option.some.inj hget'; exact absurd hqc hq
            | succ m'' => exact hmin m'' c hget' hqc
          · intro m' c hm' hget' hqc
            cases m' with
            | zero => cases Option.some.inj hget'; exact absurd hqc hq
            | succ m'' => exact hstrict m'' c (by omega) hget' hqc

theorem findBest_none_iff (exp : EvalFinding) (pool : List ReviewFinding) :
    findBest exp pool = none ↔ ∀ a ∈ pool, ¬ withinWindow exp a := by
  have h := (findBestAux_spec exp pool 0 none).1
  simpa [findBest] using h

theorem findBest_some_spec (exp : EvalFinding) (pool : List ReviewFinding)
    (j d : Nat) (h : findBest exp pool = some (j, d)) :
    (∃ a, pool.get? j = some a ∧ withinWindow exp a ∧ findingDist exp a = d)
    ∧ (∀ k b, pool.get? k = some b → withinWindow exp b → d ≤ findingDist exp b)
    ∧ (∀ k b, k < j → pool.get? k = some b → withinWindow exp b →
        d < findingDist exp b) := by
  rcases (findBestAux_spec exp pool 0 none).2 j d h with
    ⟨hbe, -⟩ | ⟨m, a, hget, hk, hq, hdist, -, hmin, hstrict⟩
  · exact absurd hbe (by simp)
  · have hjm : j = m := by omega
    subst hjm
    exact ⟨⟨a, hget, hq, hdist⟩, hmin, fun k b hkj => hstrict k b hkj⟩

theorem perm_get_cons_eraseIdx {α : Type} {l : List α} {i : Nat} {a : α}
    (h : l.get? i = some a) : l.Perm (a :: l.eraseIdx i) := by
  induction l generalizing i with
  | nil => simp at h
  | cons b t ih =>
    cases i with
    | zero =>
      cases Option.some.inj h
      exact List.Perm.refl _
    | succ n =>
      rw [List.get?_cons_succ] at h
      exact ((ih h).cons b).trans (List.Perm.swap a b (t.eraseIdx n))

theorem matchGo_map_expected (es : List EvalFinding) (pool : List ReviewFinding) :
    (matchGo es pool).1.map FindingMatch.expected = es := by
  induction es generalizing pool with
  | nil => rfl
  | cons e rest ih =>
    rcases hfb : findBest e pool with _ | ⟨i, d⟩ <;>
      simp [matchGo, hfb, ih]

theorem matchGo_perm (es : List EvalFinding) (pool : List ReviewFinding) :
    pool.Perm ((matchGo es pool).1.filterMap FindingMatch.actual ++ (matchGo es pool).2) := by
  induction es generalizing pool with
  | nil => simp [matchGo]
  | cons e rest ih =>
    rcases hfb : findBest e pool with _ | ⟨i, d⟩
    · simpa [matchGo, hfb] using ih pool
    · obtain ⟨⟨a, hget, -, -⟩, -, -⟩ := findBest_some_spec e pool i d hfb
      have h1 := perm_get_cons_eraseIdx hget
      have h2 := ih (pool.eraseIdx i)
      simp only [matchGo, hfb, hget, List.filterMap_cons, Option.some.injEq]
      exact h1.trans ((h2.cons a).trans (List.Perm.refl _))

/-- C6: `matchFindings` processes expected findings in `(file, line)` ascending
order (the matched records' expected components are the stable sort of the
input, a permutation of it, sorted under the key order); for each one,
`findBest` selects among the not-yet-consumed same-file actuals within the
inclusive 5-line window the one of minimum distance, earliest pool index on
ties (and finds none exactly when no candidate qualifies); a hit is recorded
with its distance and the actual is spliced out of the pool, a miss is
recorded as `(expected, none, -1)`; pool elements never consumed are exactly
`unmatched_actual` (the permutation conjunct).  Concretely: an expected
finding at line 10 matches an actual at line 15 (distance 5) but not at 16,
and of two same-file actuals at distances 2 and 4 the distance-2 one is
matched and the other left in `unmatched_actual`. -/
theorem C6_matchFindings_greedy_window :
    (∀ (actual : List ReviewFinding) (expected : List EvalFinding),
        (matchFindings actual expected).matched.map FindingMatch.expected =
          sortExpected expected)
  ∧ (∀ expected : List EvalFinding, (sortExpected expected).Perm expected)
  ∧ (∀ expected : List EvalFinding,
        (sortExpected expected).Pairwise fun a b => evalKeyLt b a = false)
  ∧ (∀ (exp : EvalFinding) (pool : List ReviewFinding),
        findBest exp pool = none ↔ ∀ a ∈ pool, ¬ withinWindow exp a)
  ∧ (∀ (exp : EvalFinding) (pool : List ReviewFinding) (j d : Nat),
        findBest exp pool = some (j, d) →
          (∃ a, pool.get? j = some a ∧ withinWindow exp a ∧ findingDist exp a = d)
          ∧ (∀ k b, pool.get? k = some b → withinWindow exp b →
              d ≤ findingDist exp b)
          ∧ (∀ k b, k < j → pool.get? k = some b → withinWindow exp b →
              d < findingDist exp b))
  ∧ (∀ (e : EvalFinding) (es : List EvalFinding) (pool : List ReviewFinding)
        (i d : Nat),
        findBest e pool = some (i, d) →
          matchGo (e :: es) pool =
            (⟨e, pool.get? i, (d : Int)⟩ :: (matchGo es (pool.eraseIdx i)).1,
              (matchGo es (pool.eraseIdx i)).2))
  ∧ (∀ (e : EvalFinding) (es : List EvalFinding) (pool : List ReviewFinding),
        findBest e pool = none →
          matchGo (e :: es) pool =
            (⟨e, none, -1⟩ :: (matchGo es pool).1, (matchGo es pool).2))
  ∧ (∀ (actual : List ReviewFinding) (expected : List EvalFinding),
        actual.Perm
          ((matchFindings actual expected).matched.filterMap FindingMatch.actual ++
            (matchFindings actual expected).unmatched_actual))
  ∧ matchFindings [⟨['a'], 15, none, .bug, .high, [], [], none, none⟩]
        [⟨['a'], 10, [], [], .GOOD, none⟩] =
      ⟨[⟨⟨['a'], 10, [], [], .GOOD, none⟩,
          some ⟨['a'], 15, none, .bug, .high, [], [], none, none⟩, 5⟩], []⟩
  ∧ matchFindings [⟨['a'], 16, none, .bug, .high, [], [], none, none⟩]
        [⟨['a'], 10, [], [], .GOOD, none⟩] =
      ⟨[⟨⟨['a'], 10, [], [], .GOOD, none⟩, none, -1⟩],
        [⟨['a'], 16, none, .bug, .high, [], [], none, none⟩]⟩
  ∧ matchFindings
        [⟨['a'], 12, none, .bug, .high, [], [], none, none⟩,
         ⟨['a'], 14, none, .bug, .high, [], [], none, none⟩]
        [⟨['a'], 10, [], [], .GOOD, none⟩] =
      ⟨[⟨⟨['a'], 10, [], [], .GOOD, none⟩,
          some ⟨['a'], 12, none, .bug, .high, [], [], none, none⟩, 2⟩],
        [⟨['a'], 14, none, .bug, .high, [], [], none, none⟩]⟩ := by
  refine ⟨?_, sortExpected_perm, sortExpected_pairwise, findBest_none_iff,
    findBest_some_spec, ?_, ?_, ?_, by decide, by decide, by decide⟩
  · intro actual expected
    exact matchGo_map_expected (sortExpected expected) actual
  · intro e es pool i d h
    simp [matchGo, h]
  · intro e es pool h
    simp [matchGo, h]
  · intro actual expected
    exact matchGo_perm (sortExpected expected) actual

example : parseHunkHeader ("@@ -1,3 +1,4 @@".toList) = some (1, some 3, 1, some 4) := by
  decide

example : parseHunkHeader ("@@ -5 +4,0 @@ foo".toList) = some (5, none, 4, some 0) := by
  decide

example : fileHeaderTarget ("diff --git a/x/y.ts b/x/y.ts".toList) = some ("x/y.ts".toList) := by
  decide

example :
    parseDiffHunks ("diff --git a/f b/f\n@@ -5,3 +4,0 @@".toList) =
      [(['f'], [⟨4, 0⟩])] := by
  decide

end CodeReview
